import Mathlib

/-!
Verification of the 2048 board engine and game session
(source: `2048_game.py`).

Boards are lists of rows of natural numbers (`0` encodes an empty
cell).  Every function below is a direct translation of the
corresponding Python function; the two random draws of the source
(`random.choice(empty_cells)` and `random.random() < 0.9`) are made
explicit parameters (`pick`, `four`), which is the standard shallow
embedding of nondeterminism.
-/

set_option autoImplicit false

abbrev Board := List (List Nat)

/-- Translation of `create_board`: `[[0 for _ in range(size)] for _ in range(size)]`. -/
def create_board (size : Nat) : Board :=
  (List.range size).map (fun _ => (List.range size).map (fun _ => 0))

/-- Translation of `get_empty_cells`:
`[(i, j) for i in range(len(board)) for j in range(len(board[0])) if board[i][j] == 0]`.
(The Python code indexes `board[0]`; on the empty board the comprehension's
outer range is empty, so `board[0]` is never evaluated — `headD []` is
likewise never reached there.) -/
def get_empty_cells (board : Board) : List (Nat × Nat) :=
  (List.range board.length).flatMap (fun i =>
    ((List.range (board.headD []).length).filter
      (fun j => (board.getD i []).getD j 0 == 0)).map (fun j => (i, j)))

/-- Translation of `add_random_tile`.  `random.choice(empty_cells)` is modelled
by the index `pick % len(empty_cells)` and `random.random() < 0.9` by the
Boolean `four` (`four = true` is the probability-0.1 branch placing a `4`).
The mutation of the deep copy `new_board[i][j] = value` becomes a functional
update. -/
def add_random_tile (board : Board) (pick : Nat) (four : Bool) : Board :=
  let empty_cells := get_empty_cells board
  if empty_cells.isEmpty then board
  else
    let c := empty_cells.getD (pick % empty_cells.length) (0, 0)
    board.set c.1 ((board.getD c.1 []).set c.2 (if four then 4 else 2))

/-- Translation of `initialize_game`: empty board, then two random tiles. -/
def initialize_game (size : Nat) (p1 : Nat) (f1 : Bool) (p2 : Nat) (f2 : Bool) : Board :=
  add_random_tile (add_random_tile (create_board size) p1 f1) p2 f2

/-- Body of the merge loop of `compress`: the while loop over
`new_row` (already zero-free) with `i` advancing after every step, so a
value created by `new_row[i] *= 2` is never merged again in the same
pass.  Returns the merged list and the accumulated `score`. -/
def mergeRow : List Nat → List Nat × Nat
  | a :: b :: rest =>
    if a = b then
      let r := mergeRow rest
      (2 * a :: r.1, 2 * a + r.2)
    else
      let r := mergeRow (b :: rest)
      (a :: r.1, r.2)
  | l => (l, 0)

/-- Translation of `compress`: drop zeros, run the merge loop, pad with
zeros back to the original length. -/
def compress (row : List Nat) : List Nat × Nat :=
  let new_row := row.filter (fun num => num != 0)
  let m := mergeRow new_row
  (m.1 ++ List.replicate (row.length - m.1.length) 0, m.2)

/-- Translation of `move_left`: compress every row, sum the scores. -/
def move_left (board : Board) : Board × Nat :=
  (board.map (fun row => (compress row).1),
   (board.map (fun row => (compress row).2)).sum)

/-- Length of the shortest row: the number of tuples produced by
Python's `zip(*board)` (`zip` stops at the shortest iterable; `zip()`
of no arguments is empty). -/
def minLen : List (List Nat) → Nat
  | [] => 0
  | [r] => r.length
  | r :: rest => min r.length (minLen rest)

/-- Translation of `transpose`: `[list(row) for row in zip(*board)]`.
Row `j` of the result collects entry `j` of every row of `board`;
`j` ranges over the length of the shortest row, so the `getD` default
is never reached. -/
def transpose (board : Board) : Board :=
  (List.range (minLen board)).map (fun j => board.map (fun row => row.getD j 0))

/-- Translation of `reverse_rows`: `[row[::-1] for row in board]`. -/
def reverse_rows (board : Board) : Board :=
  board.map List.reverse

/-- Translation of `move_right`: reverse each row, move left, reverse again. -/
def move_right (board : Board) : Board × Nat :=
  let b1 := reverse_rows board
  let p := move_left b1
  (reverse_rows p.1, p.2)

/-- Translation of `move_up`: transpose, move left, transpose back. -/
def move_up (board : Board) : Board × Nat :=
  let b1 := transpose board
  let p := move_left b1
  (transpose p.1, p.2)

/-- Translation of `move_down`: transpose, move right, transpose back. -/
def move_down (board : Board) : Board × Nat :=
  let b1 := transpose board
  let p := move_right b1
  (transpose p.1, p.2)

/-- Translation of `boards_equal`: Python `==` on nested lists. -/
def boards_equal (board1 board2 : Board) : Bool :=
  board1 == board2

/-- Translation of `can_move`: an empty cell exists, or some row has two
horizontally adjacent equal cells, or some column has two vertically
adjacent equal cells (the three early-`return True` checks of the source,
joined by short-circuit disjunction). -/
def can_move (board : Board) : Bool :=
  !(get_empty_cells board).isEmpty ||
  board.any (fun row =>
    (List.range (row.length - 1)).any (fun i => row.getD i 0 == row.getD (i + 1) 0)) ||
  (List.range (board.headD []).length).any (fun col =>
    (List.range (board.length - 1)).any (fun i =>
      (board.getD i []).getD col 0 == (board.getD (i + 1) []).getD col 0))

/-- Translation of `has_won`: `any(target in row for row in board)`. -/
def has_won (board : Board) (target : Nat) : Bool :=
  board.any (fun row => row.contains target)

/-- Translation of `game_over`: `not can_move(board)`. -/
def game_over (board : Board) : Bool :=
  !(can_move board)

/-- Mutable state of the `Game2048` class that the core logic touches:
`self.board`, `self.score`, `self.game_won`. -/
structure Game2048State where
  board : Board
  score : Nat
  game_won : Bool
deriving Repr, DecidableEq

/-- Outcome signalled by one call to `make_move`: no state change
(board unchanged by the mover), the "You Win!" message box, the
"Game Over" message box, or a normal committed move. -/
inductive MoveSignal where
  | rejected
  | won
  | lost
  | continued
deriving Repr, DecidableEq

/-- Translation of `Game2048.make_move`: snapshot the board, run the
mover; if the board is unchanged do nothing, otherwise commit the new
board, add the score, spawn a random tile (parameters `pick`, `four` as
in `add_random_tile`) and classify the result exactly as the
`if not self.game_won and has_won(...) / elif game_over(...)` chain
does.  The message boxes themselves (and the user-driven restart they
may trigger) belong to the presentation layer; here they are the
returned signal. -/
def make_move (st : Game2048State) (move_function : Board → Board × Nat)
    (pick : Nat) (four : Bool) : Game2048State × MoveSignal :=
  let old_board := st.board
  let res := move_function st.board
  if boards_equal old_board res.1 then
    (st, MoveSignal.rejected)
  else
    let board1 := add_random_tile res.1 pick four
    let score1 := st.score + res.2
    if !st.game_won && has_won board1 2048 then
      ({ board := board1, score := score1, game_won := true }, MoveSignal.won)
    else if game_over board1 then
      ({ board := board1, score := score1, game_won := st.game_won }, MoveSignal.lost)
    else
      ({ board := board1, score := score1, game_won := st.game_won }, MoveSignal.continued)

/-- Translation of `Game2048.restart_game`: fresh board from
`initialize_game`, score `0`, win flag cleared. -/
def restart_game (size : Nat) (p1 : Nat) (f1 : Bool) (p2 : Nat) (f2 : Bool) : Game2048State :=
  { board := initialize_game size p1 f1 p2 f2, score := 0, game_won := false }

/-- Sum of all tile values on a board. -/
def sumBoard (board : Board) : Nat :=
  (board.map List.sum).sum

/-- The data-model invariant of the spec: the grid is square (every row
as long as the list of rows). -/
def is_square (board : Board) : Bool :=
  board.all (fun row => row.length == board.length)

/-- Helper used to state the `can_move` adjacency checks structurally:
some two consecutive entries of the list are equal. -/
def rowHasAdjPair : List Nat → Bool
  | a :: b :: rest => a == b || rowHasAdjPair (b :: rest)
  | _ => false

/-- Modelled from the spec (§8, "sum of all newly-created merged
values"): the values created by the merge pass of `compress`, one `2*a`
per merged pair, in order. -/
def mergedValues : List Nat → List Nat
  | a :: b :: rest =>
    if a = b then 2 * a :: mergedValues rest
    else mergedValues (b :: rest)
  | _ => []

example : compress [2, 2, 0, 0] = ([4, 0, 0, 0], 4) := by decide
example : compress [2, 2, 2, 0] = ([4, 2, 0, 0], 4) := by decide
example : compress [0, 2, 0, 4] = ([2, 4, 0, 0], 0) := by decide
example : transpose [[1, 2], [3, 4]] = [[1, 3], [2, 4]] := by decide
example : can_move [[2, 4], [8, 16]] = false := by decide
example : can_move [[0, 0], [0, 0]] = true := by decide
example : (move_left [[0, 0], [0, 0]]).1 = [[0, 0], [0, 0]] := by decide
example : (move_up [[0, 0], [0, 0]]).1 = [[0, 0], [0, 0]] := by decide
example : add_random_tile [[0, 2], [2, 4]] 0 false = [[2, 2], [2, 4]] := by decide

/-! Generic list lemmas used throughout. -/

theorem getD_map {α β : Type} (f : α → β) (d : β) (d2 : α) :
    ∀ (l : List α) (i : Nat), i < l.length → (l.map f).getD i d = f (l.getD i d2)
  | a :: l, 0, _ => rfl
  | a :: l, i + 1, h => by
    simpa using getD_map f d d2 l i (by simpa using h)

theorem range_map_getD {α : Type} (d : α) : ∀ l : List α,
    (List.range l.length).map (fun j => l.getD j d) = l
  | [] => rfl
  | a :: l => by
    rw [List.length_cons, List.range_succ_eq_map, List.map_cons, List.map_map]
    have ih := range_map_getD d l
    simp only [Function.comp_def, List.getD_cons_succ, List.getD_cons_zero]
    rw [ih]

theorem getD_mem {α : Type} (l : List α) (i : Nat) (d : α) (h : i < l.length) :
    l.getD i d ∈ l := by
  rw [List.getD_eq_getElem l d h]
  exact List.getElem_mem h

theorem map_eq_self_mem {α : Type} {f : α → α} :
    ∀ {l : List α}, l.map f = l → ∀ x ∈ l, f x = x
  | [], _, x, hx => absurd hx (List.not_mem_nil x)
  | a :: l, h, x, hx => by
    rw [List.map_cons, List.cons.injEq] at h
    rcases List.mem_cons.1 hx with rfl | hx
    · exact h.1
    · exact map_eq_self_mem h.2 x hx

theorem sum_map_add {α : Type} (f g : α → Nat) : ∀ l : List α,
    (l.map (fun x => f x + g x)).sum = (l.map f).sum + (l.map g).sum
  | [] => rfl
  | a :: l => by
    simp [sum_map_add f g l]; omega

theorem sum_filter_ne_zero : ∀ l : List Nat,
    (l.filter (fun num => num != 0)).sum = l.sum
  | [] => rfl
  | a :: l => by
    by_cases h : a = 0
    · subst h; simpa using sum_filter_ne_zero l
    · rw [List.filter_cons_of_pos (by simpa using h)]
      simpa using sum_filter_ne_zero l

theorem getD_set_self {α : Type} (x d : α) :
    ∀ (l : List α) (i : Nat), i < l.length → (l.set i x).getD i d = x
  | a :: l, 0, _ => rfl
  | a :: l, i + 1, h => by
    simpa using getD_set_self x d l i (by simpa using h)

theorem getD_set_ne {α : Type} (x d : α) :
    ∀ (l : List α) (i a : Nat), a ≠ i → (l.set i x).getD a d = l.getD a d
  | [], i, a, _ => by simp
  | b :: l, 0, 0, h => absurd rfl h
  | b :: l, 0, a + 1, h => by simp
  | b :: l, i + 1, 0, h => by simp
  | b :: l, i + 1, a + 1, h => by
    simpa using getD_set_ne x d l i a (by omega)

/-! Lemmas about the merge pass. -/

theorem mergeRow_length_le : ∀ l : List Nat, (mergeRow l).1.length ≤ l.length
  | [] => Nat.le_refl _
  | [_] => Nat.le_refl _
  | a :: b :: rest => by
    by_cases h : a = b
    · simp only [mergeRow, if_pos h, List.length_cons]
      have ih := mergeRow_length_le rest
      omega
    · simp only [mergeRow, if_neg h, List.length_cons]
      have ih := mergeRow_length_le (b :: rest)
      simp only [List.length_cons] at ih
      omega

theorem mergeRow_sum : ∀ l : List Nat, (mergeRow l).1.sum = l.sum
  | [] => rfl
  | [_] => rfl
  | a :: b :: rest => by
    by_cases h : a = b
    · simp only [mergeRow, if_pos h, List.sum_cons]
      have ih := mergeRow_sum rest
      subst h; omega
    · simp only [mergeRow, if_neg h, List.sum_cons]
      have ih := mergeRow_sum (b :: rest)
      simp only [List.sum_cons] at ih
      omega

theorem mergeRow_nonzero : ∀ l : List Nat, (∀ x ∈ l, x ≠ 0) →
    ∀ x ∈ (mergeRow l).1, x ≠ 0
  | [], _, x, hx => absurd hx (List.not_mem_nil x)
  | [a], h, x, hx => by
    simp only [mergeRow] at hx
    exact h x hx
  | a :: b :: rest, h, x, hx => by
    by_cases hab : a = b
    · simp only [mergeRow, if_pos hab, List.mem_cons] at hx
      rcases hx with rfl | hx
      · have := h a (by simp)
        omega
      · exact mergeRow_nonzero rest (fun y hy => h y (by simp [hy])) x hx
    · simp only [mergeRow, if_neg hab, List.mem_cons] at hx
      rcases hx with rfl | hx
      · exact h x (by simp)
      · exact mergeRow_nonzero (b :: rest)
          (fun y hy => h y (by simp [List.mem_cons] at hy ⊢; tauto)) x hx

theorem mergeRow_fixed : ∀ l : List Nat, rowHasAdjPair l = false → mergeRow l = (l, 0)
  | [], _ => rfl
  | [_], _ => rfl
  | a :: b :: rest, h => by
    simp only [rowHasAdjPair, Bool.or_eq_false_iff, beq_eq_false_iff_ne, ne_eq] at h
    simp only [mergeRow, if_neg h.1, mergeRow_fixed (b :: rest) h.2]

theorem mergeRow_shrink : ∀ l : List Nat, rowHasAdjPair l = true →
    (mergeRow l).1.length < l.length
  | a :: b :: rest, h => by
    by_cases hab : a = b
    · simp only [mergeRow, if_pos hab, List.length_cons]
      have := mergeRow_length_le rest
      omega
    · simp only [rowHasAdjPair, Bool.or_eq_true, beq_iff_eq] at h
      rcases h with h | h
      · exact absurd h hab
      · simp only [mergeRow, if_neg hab, List.length_cons]
        have := mergeRow_shrink (b :: rest) h
        simp only [List.length_cons] at this
        omega

theorem mergeRow_score : ∀ l : List Nat, (mergeRow l).2 = (mergedValues l).sum
  | [] => rfl
  | [_] => rfl
  | a :: b :: rest => by
    by_cases h : a = b
    · simp only [mergeRow, if_pos h, mergedValues, List.sum_cons]
      rw [mergeRow_score rest]
    · simp only [mergeRow, if_neg h, mergedValues]
      exact mergeRow_score (b :: rest)

/-! Lemmas about `compress`. -/

theorem filter_mem_ne_zero (r : List Nat) :
    ∀ x ∈ r.filter (fun num => num != 0), x ≠ 0 := by
  intro x hx
  have := List.of_mem_filter hx
  simpa using this

theorem replicate_filter_ne_zero (k : Nat) :
    (List.replicate k 0).filter (fun num => (num : Nat) != 0) = [] := by
  induction k with
  | zero => rfl
  | succ n ih =>
    rw [List.replicate_succ, List.filter_cons_of_neg (by simp)]
    exact ih

theorem compress_length (r : List Nat) : (compress r).1.length = r.length := by
  have h1 : (mergeRow (r.filter (fun num => num != 0))).1.length ≤ r.length :=
    Nat.le_trans (mergeRow_length_le _) (List.length_filter_le _ _)
  simp only [compress, List.length_append, List.length_replicate]
  omega

theorem compress_fixed_of (r : List Nat) (hz : ∀ x ∈ r, x ≠ 0)
    (hp : rowHasAdjPair r = false) : compress r = (r, 0) := by
  have hfil : r.filter (fun num => num != 0) = r := by
    rw [List.filter_eq_self]
    intro a ha
    simpa using hz a ha
  simp only [compress, hfil, mergeRow_fixed r hp]
  simp

theorem compress_decomp (r : List Nat) (h : (compress r).1 = r) :
    ∃ m k, r = m ++ List.replicate k 0 ∧ ∀ x ∈ m, x ≠ 0 := by
  refine ⟨(mergeRow (r.filter (fun num => num != 0))).1,
    r.length - (mergeRow (r.filter (fun num => num != 0))).1.length, ?_, ?_⟩
  · have hc : (compress r).1 = (mergeRow (r.filter (fun num => num != 0))).1 ++
        List.replicate (r.length - (mergeRow (r.filter (fun num => num != 0))).1.length) 0 := rfl
    rw [← hc, h]
  · exact mergeRow_nonzero _ (filter_mem_ne_zero r)

theorem compress_fixed_filter (r : List Nat) (h : (compress r).1 = r) :
    r.filter (fun num => num != 0) = (mergeRow (r.filter (fun num => num != 0))).1 := by
  have hmz : ∀ x ∈ (mergeRow (r.filter (fun num => num != 0))).1, x ≠ 0 :=
    mergeRow_nonzero _ (filter_mem_ne_zero r)
  have hfm : (mergeRow (r.filter (fun num => num != 0))).1.filter (fun num => num != 0)
      = (mergeRow (r.filter (fun num => num != 0))).1 := by
    rw [List.filter_eq_self]; intro a ha; simpa using hmz a ha
  have hr : (mergeRow (r.filter (fun num => num != 0))).1 ++
      List.replicate (r.length - (mergeRow (r.filter (fun num => num != 0))).1.length) 0 = r := h
  conv_lhs => rw [← hr]
  rw [List.filter_append, hfm, replicate_filter_ne_zero, List.append_nil]

theorem compress_no_pair (r : List Nat) (h : (compress r).1 = r) :
    rowHasAdjPair (r.filter (fun num => num != 0)) = false := by
  cases hp : rowHasAdjPair (r.filter (fun num => num != 0)) with
  | false => rfl
  | true =>
    have hlt := mergeRow_shrink _ hp
    rw [← compress_fixed_filter r h] at hlt
    omega

theorem compress_zero_free_fixed (r : List Nat) (hz : ∀ x ∈ r, x ≠ 0)
    (h : (compress r).1 = r) : rowHasAdjPair r = false := by
  have hfil : r.filter (fun num => num != 0) = r := by
    rw [List.filter_eq_self]; intro a ha; simpa using hz a ha
  have := compress_no_pair r h
  rwa [hfil] at this

theorem row_dichotomy (r : List Nat) (h1 : (compress r).1 = r)
    (h2 : (compress r.reverse).1 = r.reverse) :
    (∀ x ∈ r, x = 0) ∨ (∀ x ∈ r, x ≠ 0) := by
  obtain ⟨m1, k1, hd1, hm1⟩ := compress_decomp r h1
  obtain ⟨m2, k2, hd2, hm2⟩ := compress_decomp r.reverse h2
  by_cases hz : ∀ x ∈ r, x ≠ 0
  · exact Or.inr hz
  · push_neg at hz
    obtain ⟨y, hy, hy0⟩ := hz
    -- y is a zero cell of r
    left
    cases m2 with
    | nil =>
      -- r.reverse is all zeros, hence so is r
      intro x hx
      have hx2 : x ∈ r.reverse := List.mem_reverse.2 hx
      rw [hd2, List.nil_append] at hx2
      exact List.eq_of_mem_replicate hx2
    | cons c t =>
      -- the head of r.reverse is the nonzero c, but r ends in a zero block
      exfalso
      -- k1 > 0 since the zero y lies in the replicate part of r
      have hy1 : y ∈ m1 ++ List.replicate k1 0 := by rw [← hd1]; exact hy
      have hk1 : 0 < k1 := by
        rcases List.mem_append.1 hy1 with h | h
        · exact absurd (by simpa using hy0) (hm1 y h)
        · rcases Nat.eq_zero_or_pos k1 with hk | hk
          · subst hk; simp at h
          · exact hk
      obtain ⟨j, rfl⟩ := Nat.exists_eq_succ_of_ne_zero (Nat.pos_iff_ne_zero.1 hk1)
      have hrev : r.reverse = List.replicate (j + 1) 0 ++ m1.reverse := by
        rw [hd1, List.reverse_append, List.reverse_replicate]
      rw [hd2] at hrev
      rw [List.replicate_succ, List.cons_append, List.cons_append] at hrev
      injection hrev with hc _
      exact hm2 c (by simp) hc

/-! Characterizations of the adjacency checks of `can_move`. -/

theorem adj_loop_eq : ∀ row : List Nat,
    ((List.range (row.length - 1)).any
      (fun i => row.getD i 0 == row.getD (i + 1) 0)) = rowHasAdjPair row
  | [] => rfl
  | [_] => rfl
  | a :: b :: rest => by
    have ih := adj_loop_eq (b :: rest)
    simp only [List.length_cons, Nat.add_sub_cancel] at ih ⊢
    rw [List.range_succ_eq_map, List.any_cons, List.any_map]
    simp only [Function.comp_def, List.getD_cons_succ, List.getD_cons_zero] at ih ⊢
    rw [ih]
    rfl

theorem rowHasAdjPair_iff : ∀ l : List Nat,
    rowHasAdjPair l = true ↔ ∃ l1 a l2, l = l1 ++ a :: a :: l2
  | [] => by
    constructor
    · intro h; exact absurd h (by simp [rowHasAdjPair])
    · rintro ⟨l1, a, l2, h⟩
      have := congrArg List.length h
      simp at this
      omega
  | [x] => by
    constructor
    · intro h; exact absurd h (by simp [rowHasAdjPair])
    · rintro ⟨l1, a, l2, h⟩
      have := congrArg List.length h
      simp at this
      omega
  | a :: b :: rest => by
    by_cases hab : a = b
    · subst hab
      simp only [rowHasAdjPair, beq_self_eq_true, Bool.true_or, true_iff]
      exact ⟨[], a, rest, rfl⟩
    · have ih := rowHasAdjPair_iff (b :: rest)
      simp only [rowHasAdjPair, Bool.or_eq_true, beq_iff_eq]
      constructor
      · rintro (h | h)
        · exact absurd h hab
        · obtain ⟨l1, c, l2, hdec⟩ := ih.1 h
          exact ⟨a :: l1, c, l2, by simp [hdec]⟩
      · rintro ⟨l1, c, l2, hdec⟩
        cases l1 with
        | nil =>
          simp only [List.nil_append, List.cons.injEq] at hdec
          exact absurd (hdec.1.trans hdec.2.1.symm) hab
        | cons d t =>
          right
          refine ih.2 ⟨t, c, l2, ?_⟩
          simp only [List.cons_append, List.cons.injEq] at hdec
          exact hdec.2

theorem rowHasAdjPair_reverse (l : List Nat) :
    rowHasAdjPair l.reverse = rowHasAdjPair l := by
  have hiff : rowHasAdjPair l.reverse = true ↔ rowHasAdjPair l = true := by
    rw [rowHasAdjPair_iff, rowHasAdjPair_iff]
    constructor
    · rintro ⟨l1, a, l2, h⟩
      refine ⟨l2.reverse, a, l1.reverse, ?_⟩
      have := congrArg List.reverse h
      simp only [List.reverse_reverse, List.reverse_append, List.reverse_cons] at this
      rw [this]
      simp [List.append_assoc]
    · rintro ⟨l1, a, l2, h⟩
      refine ⟨l2.reverse, a, l1.reverse, ?_⟩
      subst h
      simp [List.append_assoc]
  cases hr : rowHasAdjPair l.reverse <;> cases hl : rowHasAdjPair l <;> simp_all

/-! Shape lemmas: squareness is preserved by every board transform. -/

theorem minLen_uniform {n : Nat} : ∀ board : Board, board ≠ [] →
    (∀ r ∈ board, r.length = n) → minLen board = n
  | [r], _, h => h r (by simp)
  | r :: s :: rest, _, h => by
    have ih := minLen_uniform (s :: rest) (by simp)
      (fun x hx => h x (by simp [List.mem_cons] at hx ⊢; tauto))
    show min r.length (minLen (s :: rest)) = n
    rw [ih, h r (by simp)]
    exact Nat.min_self n

theorem is_square_iff (board : Board) :
    is_square board = true ↔ ∀ r ∈ board, r.length = board.length := by
  simp [is_square, List.all_eq_true]

theorem transpose_length_of_square (board : Board) (h : is_square board = true) :
    (transpose board).length = board.length := by
  cases board with
  | nil => rfl
  | cons r rest =>
    simp only [transpose, List.length_map, List.length_range]
    exact minLen_uniform _ (by simp) ((is_square_iff _).1 h)

theorem transpose_row_length (board : Board) :
    ∀ c ∈ transpose board, c.length = board.length := by
  intro c hc
  simp only [transpose, List.mem_map] at hc
  obtain ⟨j, _, rfl⟩ := hc
  simp

theorem transpose_square (board : Board) (h : is_square board = true) :
    is_square (transpose board) = true := by
  rw [is_square_iff]
  intro c hc
  rw [transpose_row_length board c hc, transpose_length_of_square board h]

theorem transpose_transpose (board : Board) (h : is_square board = true) :
    transpose (transpose board) = board := by
  have hsq := (is_square_iff board).1 h
  by_cases hne : board = []
  · subst hne; rfl
  · have hmin : minLen board = board.length := minLen_uniform board hne hsq
    have hTrows : ∀ c ∈ transpose board, c.length = board.length :=
      transpose_row_length board
    have hTlen : (transpose board).length = board.length :=
      transpose_length_of_square board h
    have hTne : transpose board ≠ [] := by
      intro hx
      rw [hx] at hTlen
      simp at hTlen
      exact hne (List.length_eq_zero.1 hTlen.symm)
    have hminT : minLen (transpose board) = board.length :=
      minLen_uniform _ hTne hTrows
    have step : ∀ i ∈ List.range board.length,
        (transpose board).map (fun c => c.getD i 0) = board.getD i [] := by
      intro i hi
      have hilt : i < board.length := List.mem_range.1 hi
      simp only [transpose, hmin, List.map_map]
      have h1 : ∀ j ∈ List.range board.length,
          ((fun c => c.getD i 0) ∘ (fun j => board.map (fun row => row.getD j 0))) j
            = (board.getD i []).getD j 0 := by
        intro j hj
        simp only [Function.comp_def]
        exact getD_map _ _ [] board i hilt
      rw [List.map_congr_left h1]
      have hlen : (board.getD i []).length = board.length :=
        hsq _ (getD_mem board i [] hilt)
      conv_lhs => rw [← hlen]
      exact range_map_getD 0 (board.getD i [])
    calc transpose (transpose board)
        = (List.range board.length).map
            (fun i => (transpose board).map (fun c => c.getD i 0)) := by
          conv_lhs => rw [transpose, hminT]
      _ = (List.range board.length).map (fun i => board.getD i []) :=
          List.map_congr_left step
      _ = board := range_map_getD [] board

theorem reverse_rows_involutive (board : Board) :
    reverse_rows (reverse_rows board) = board := by
  simp [reverse_rows, List.map_map, Function.comp_def]

theorem reverse_rows_length (board : Board) :
    (reverse_rows board).length = board.length := by
  simp [reverse_rows]

theorem reverse_rows_square (board : Board) (h : is_square board = true) :
    is_square (reverse_rows board) = true := by
  rw [is_square_iff] at h ⊢
  intro r hr
  simp only [reverse_rows, List.mem_map] at hr
  obtain ⟨r0, hr0, rfl⟩ := hr
  simp [reverse_rows, h r0 hr0]

theorem move_left_length (board : Board) :
    (move_left board).1.length = board.length := by
  simp [move_left]

theorem move_left_square (board : Board) (h : is_square board = true) :
    is_square (move_left board).1 = true := by
  rw [is_square_iff] at h ⊢
  intro r hr
  simp only [move_left, List.mem_map] at hr
  obtain ⟨r0, hr0, rfl⟩ := hr
  rw [compress_length, move_left_length, h r0 hr0]

theorem move_right_length (board : Board) :
    (move_right board).1.length = board.length := by
  simp only [move_right, reverse_rows_length, move_left_length]

theorem move_right_square (board : Board) (h : is_square board = true) :
    is_square (move_right board).1 = true := by
  have h1 := reverse_rows_square board h
  have h2 := move_left_square _ h1
  have h3 := reverse_rows_square _ h2
  rw [is_square_iff] at h3 ⊢
  intro r hr
  rw [h3 r hr, reverse_rows_length, move_left_length, reverse_rows_length,
    move_right_length]

theorem move_up_length (board : Board) (h : is_square board = true) :
    (move_up board).1.length = board.length := by
  have h1 := transpose_square board h
  have h2 := move_left_square _ h1
  show (transpose (move_left (transpose board)).1).length = board.length
  rw [transpose_length_of_square _ h2, move_left_length,
    transpose_length_of_square _ h]

theorem move_up_square (board : Board) (h : is_square board = true) :
    is_square (move_up board).1 = true := by
  have h1 := transpose_square board h
  have h2 := move_left_square _ h1
  exact transpose_square _ h2

theorem move_down_length (board : Board) (h : is_square board = true) :
    (move_down board).1.length = board.length := by
  have h1 := transpose_square board h
  have h2 := move_right_square _ h1
  show (transpose (move_right (transpose board)).1).length = board.length
  rw [transpose_length_of_square _ h2, move_right_length,
    transpose_length_of_square _ h]

theorem move_down_square (board : Board) (h : is_square board = true) :
    is_square (move_down board).1 = true := by
  have h1 := transpose_square board h
  have h2 := move_right_square _ h1
  exact transpose_square _ h2

/-! Sum conservation lemmas. -/

theorem compress_sum (r : List Nat) : (compress r).1.sum = r.sum := by
  have h1 : (compress r).1 = (mergeRow (r.filter (fun num => num != 0))).1 ++
      List.replicate (r.length - (mergeRow (r.filter (fun num => num != 0))).1.length) 0 := rfl
  rw [h1, List.sum_append, mergeRow_sum, sum_filter_ne_zero]
  simp

theorem sumBoard_move_left (board : Board) :
    sumBoard (move_left board).1 = sumBoard board := by
  simp only [sumBoard, move_left, List.map_map]
  congr 1
  apply List.map_congr_left
  intro r _
  exact compress_sum r

theorem sumBoard_reverse_rows (board : Board) :
    sumBoard (reverse_rows board) = sumBoard board := by
  simp only [sumBoard, reverse_rows, List.map_map]
  congr 1
  apply List.map_congr_left
  intro r _
  exact List.sum_reverse r

theorem col_sum (n : Nat) : ∀ rows : Board, (∀ r ∈ rows, r.length = n) →
    ((List.range n).map (fun j => (rows.map (fun row => row.getD j 0)).sum)).sum
      = sumBoard rows
  | [], _ => by simp [sumBoard]
  | r :: rest, h => by
    have ih := col_sum n rest (fun x hx => h x (by simp [hx]))
    have hr : r.length = n := h r (by simp)
    simp only [List.map_cons, List.sum_cons]
    rw [sum_map_add (fun j => r.getD j 0)
      (fun j => (rest.map (fun row => row.getD j 0)).sum) (List.range n)]
    rw [ih]
    have hrsum : ((List.range n).map (fun j => r.getD j 0)).sum = r.sum := by
      conv_lhs => rw [← hr]
      rw [range_map_getD 0 r]
    rw [hrsum]
    simp [sumBoard]

theorem sumBoard_transpose (board : Board) (h : is_square board = true) :
    sumBoard (transpose board) = sumBoard board := by
  by_cases hne : board = []
  · subst hne; rfl
  · have hsq := (is_square_iff board).1 h
    have hmin : minLen board = board.length := minLen_uniform board hne hsq
    simp only [transpose, hmin, sumBoard, List.map_map]
    have := col_sum board.length board hsq
    simp only [sumBoard] at this
    rw [← this]
    congr 1

theorem sumBoard_move_right (board : Board) :
    sumBoard (move_right board).1 = sumBoard board := by
  show sumBoard (reverse_rows (move_left (reverse_rows board)).1) = sumBoard board
  rw [sumBoard_reverse_rows, sumBoard_move_left, sumBoard_reverse_rows]

theorem sumBoard_move_up (board : Board) (h : is_square board = true) :
    sumBoard (move_up board).1 = sumBoard board := by
  have h1 := transpose_square board h
  have h2 := move_left_square _ h1
  show sumBoard (transpose (move_left (transpose board)).1) = sumBoard board
  rw [sumBoard_transpose _ h2, sumBoard_move_left, sumBoard_transpose _ h]

theorem sumBoard_move_down (board : Board) (h : is_square board = true) :
    sumBoard (move_down board).1 = sumBoard board := by
  have h1 := transpose_square board h
  have h2 := move_right_square _ h1
  show sumBoard (transpose (move_right (transpose board)).1) = sumBoard board
  rw [sumBoard_transpose _ h2, sumBoard_move_right, sumBoard_transpose _ h]

/-! Characterizations of `get_empty_cells`. -/

theorem mem_get_empty_cells (board : Board) (i j : Nat) :
    (i, j) ∈ get_empty_cells board ↔
      i < board.length ∧ j < (board.headD []).length ∧
        (board.getD i []).getD j 0 = 0 := by
  simp only [get_empty_cells, List.mem_flatMap, List.mem_map, List.mem_filter,
    List.mem_range, beq_iff_eq, Prod.mk.injEq]
  constructor
  · rintro ⟨i2, hi2, j2, ⟨hj2, hz⟩, rfl, rfl⟩
    exact ⟨hi2, hj2, hz⟩
  · rintro ⟨hi, hj, hz⟩
    exact ⟨i, hi, j, ⟨hj, hz⟩, rfl, rfl⟩

theorem get_empty_cells_eq_nil (board : Board) :
    get_empty_cells board = [] ↔
      ∀ i < board.length, ∀ j < (board.headD []).length,
        (board.getD i []).getD j 0 ≠ 0 := by
  rw [List.eq_nil_iff_forall_not_mem]
  constructor
  · intro h i hi j hj hz
    exact h (i, j) ((mem_get_empty_cells board i j).2 ⟨hi, hj, hz⟩)
  · rintro h ⟨i, j⟩ hmem
    obtain ⟨hi, hj, hz⟩ := (mem_get_empty_cells board i j).1 hmem
    exact h i hi j hj hz

theorem head_length_square (board : Board) (hne : board ≠ [])
    (h : is_square board = true) : (board.headD []).length = board.length := by
  cases board with
  | nil => exact absurd rfl hne
  | cons r rest => exact (is_square_iff _).1 h r (by simp)

/-! The `can_move` equivalence: auxiliary lemmas. -/

theorem any_congr {α : Type} : ∀ (l : List α) (f g : α → Bool),
    (∀ x ∈ l, f x = g x) → l.any f = l.any g
  | [], _, _, _ => rfl
  | a :: l, f, g, h => by
    simp only [List.any_cons, h a (by simp),
      any_congr l f g (fun x hx => h x (by simp [hx]))]

theorem any_map_comp {α β : Type} (f : α → β) (p : β → Bool) :
    ∀ l : List α, (l.map f).any p = l.any (fun x => p (f x))
  | [] => rfl
  | a :: l => by
    simp only [List.map_cons, List.any_cons, any_map_comp f p l]

theorem minLen_le : ∀ (board : Board), ∀ r ∈ board, minLen board ≤ r.length
  | [r], x, hx => by
    simp only [List.mem_singleton] at hx
    subst hx
    exact Nat.le_refl _
  | r :: s :: rest, x, hx => by
    show min r.length (minLen (s :: rest)) ≤ x.length
    rcases List.mem_cons.1 hx with rfl | hx2
    · exact Nat.min_le_left _ _
    · exact Nat.le_trans (Nat.min_le_right _ _) (minLen_le (s :: rest) x hx2)

theorem vert_check_eq (board : Board) (hsq : is_square board = true) :
    ((List.range (board.headD []).length).any (fun col =>
      (List.range (board.length - 1)).any (fun i =>
        (board.getD i []).getD col 0 == (board.getD (i + 1) []).getD col 0)))
    = (transpose board).any rowHasAdjPair := by
  by_cases hne : board = []
  · subst hne; rfl
  · have hsq2 := (is_square_iff board).1 hsq
    have hbl : 0 < board.length := List.length_pos.2 hne
    have hh : (board.headD []).length = board.length := head_length_square board hne hsq
    have hmin : minLen board = board.length := minLen_uniform board hne hsq2
    rw [hh, transpose, hmin, any_map_comp]
    apply any_congr
    intro col _
    rw [← adj_loop_eq (board.map (fun row => row.getD col 0))]
    simp only [List.length_map]
    apply any_congr
    intro i hi
    have hin : i < board.length - 1 := List.mem_range.1 hi
    have h1 : (board.map (fun row => row.getD col 0)).getD i 0
        = (board.getD i []).getD col 0 :=
      getD_map (fun row => row.getD col 0) 0 [] board i (by omega)
    have h2 : (board.map (fun row => row.getD col 0)).getD (i + 1) 0
        = (board.getD (i + 1) []).getD col 0 :=
      getD_map (fun row => row.getD col 0) 0 [] board (i + 1) (by omega)
    rw [h1, h2]

theorem transpose_mem_char (board : Board) :
    ∀ c ∈ transpose board, ∃ j, j < minLen board ∧
      c = board.map (fun row => row.getD j 0) := by
  intro c hc
  simp only [transpose, List.mem_map, List.mem_range] at hc
  obtain ⟨j, hj, rfl⟩ := hc
  exact ⟨j, hj, rfl⟩

theorem transpose_cell_ne_zero (board : Board)
    (h0 : ∀ r ∈ board, ∀ x ∈ r, x ≠ 0) :
    ∀ c ∈ transpose board, ∀ x ∈ c, x ≠ 0 := by
  intro c hc x hx
  obtain ⟨j, hj, rfl⟩ := transpose_mem_char board c hc
  simp only [List.mem_map] at hx
  obtain ⟨row, hrow, rfl⟩ := hx
  have hjr : j < row.length := Nat.lt_of_lt_of_le hj (minLen_le board row hrow)
  exact h0 row hrow _ (getD_mem row j 0 hjr)

theorem reverse_rows_cell_ne_zero (board : Board)
    (h0 : ∀ r ∈ board, ∀ x ∈ r, x ≠ 0) :
    ∀ r ∈ reverse_rows board, ∀ x ∈ r, x ≠ 0 := by
  intro r hr x hx
  simp only [reverse_rows, List.mem_map] at hr
  obtain ⟨r0, hr0, rfl⟩ := hr
  exact h0 r0 hr0 x (List.mem_reverse.1 hx)

theorem reverse_rows_no_pair (board : Board)
    (hp : ∀ r ∈ board, rowHasAdjPair r = false) :
    ∀ r ∈ reverse_rows board, rowHasAdjPair r = false := by
  intro r hr
  simp only [reverse_rows, List.mem_map] at hr
  obtain ⟨r0, hr0, rfl⟩ := hr
  rw [rowHasAdjPair_reverse]
  exact hp r0 hr0

theorem move_left_fixed_of (board : Board)
    (h0 : ∀ r ∈ board, ∀ x ∈ r, x ≠ 0)
    (hp : ∀ r ∈ board, rowHasAdjPair r = false) :
    move_left board = (board, 0) := by
  have hcomp : ∀ r ∈ board, compress r = (r, 0) :=
    fun r hr => compress_fixed_of r (h0 r hr) (hp r hr)
  have h1 : board.map (fun row => (compress row).1) = board := by
    conv_rhs => rw [← List.map_id board]
    apply List.map_congr_left
    intro r hr
    rw [hcomp r hr]
    rfl
  have h2 : (board.map (fun row => (compress row).2)).sum = 0 := by
    have he : board.map (fun row => (compress row).2) = board.map (fun _ => 0) :=
      List.map_congr_left (fun r hr => by rw [hcomp r hr])
    rw [he]
    simp
  show (board.map (fun row => (compress row).1),
    (board.map (fun row => (compress row).2)).sum) = (board, 0)
  rw [h1, h2]

theorem can_move_false_parts (board : Board) (h : can_move board = false) :
    get_empty_cells board = [] ∧
    (∀ r ∈ board, rowHasAdjPair r = false) ∧
    ((List.range (board.headD []).length).any (fun col =>
      (List.range (board.length - 1)).any (fun i =>
        (board.getD i []).getD col 0 == (board.getD (i + 1) []).getD col 0)) = false) := by
  rw [can_move] at h
  simp only [Bool.or_eq_false_iff, Bool.not_eq_false'] at h
  obtain ⟨⟨hA, hB⟩, hC⟩ := h
  refine ⟨List.isEmpty_iff.1 hA, ?_, hC⟩
  intro r hr
  rw [← adj_loop_eq r]
  rw [List.any_eq_false] at hB
  exact Bool.eq_false_iff.2 (hB r hr)

theorem cells_ne_zero_rows (board : Board) (hsq : is_square board = true)
    (h : ∀ i < board.length, ∀ j < (board.headD []).length,
      (board.getD i []).getD j 0 ≠ 0) :
    ∀ r ∈ board, ∀ x ∈ r, x ≠ 0 := by
  intro r hr x hx
  have hne : board ≠ [] := by rintro rfl; simp at hr
  have hh : (board.headD []).length = board.length := head_length_square board hne hsq
  obtain ⟨i, hi, hr_eq⟩ := List.mem_iff_getElem.1 hr
  obtain ⟨j, hj, hx_eq⟩ := List.mem_iff_getElem.1 hx
  have hri : board.getD i [] = r := by rw [List.getD_eq_getElem board [] hi, hr_eq]
  have hrl : r.length = board.length := (is_square_iff board).1 hsq r hr
  have hcell : (board.getD i []).getD j 0 = x := by
    rw [hri, List.getD_eq_getElem r 0 hj, hx_eq]
  intro hx0
  exact h i hi j (by rw [hh, ← hrl]; exact hj) (by rw [hcell, hx0])

theorem movers_fixed_of_no_move (board : Board) (hsq : is_square board = true)
    (h : can_move board = false) :
    move_left board = (board, 0) ∧ move_right board = (board, 0) ∧
      move_up board = (board, 0) ∧ move_down board = (board, 0) := by
  obtain ⟨hA, hB, hC⟩ := can_move_false_parts board h
  have h0 : ∀ r ∈ board, ∀ x ∈ r, x ≠ 0 :=
    cells_ne_zero_rows board hsq ((get_empty_cells_eq_nil board).1 hA)
  have hCc : ∀ c ∈ transpose board, rowHasAdjPair c = false := by
    rw [vert_check_eq board hsq, List.any_eq_false] at hC
    intro c hc
    exact Bool.eq_false_iff.2 (hC c hc)
  have hml : move_left board = (board, 0) := move_left_fixed_of board h0 hB
  have hmr : move_right board = (board, 0) := by
    have hfix := move_left_fixed_of (reverse_rows board)
      (reverse_rows_cell_ne_zero board h0) (reverse_rows_no_pair board hB)
    show (reverse_rows (move_left (reverse_rows board)).1,
      (move_left (reverse_rows board)).2) = (board, 0)
    rw [hfix]
    simp only [reverse_rows_involutive]
  have h0t := transpose_cell_ne_zero board h0
  have hmu : move_up board = (board, 0) := by
    have hfix := move_left_fixed_of (transpose board) h0t hCc
    show (transpose (move_left (transpose board)).1,
      (move_left (transpose board)).2) = (board, 0)
    rw [hfix]
    simp only [transpose_transpose board hsq]
  have hmd : move_down board = (board, 0) := by
    have hmrt : move_right (transpose board) = (transpose board, 0) := by
      have hfix := move_left_fixed_of (reverse_rows (transpose board))
        (reverse_rows_cell_ne_zero _ h0t) (reverse_rows_no_pair _ hCc)
      show (reverse_rows (move_left (reverse_rows (transpose board))).1,
        (move_left (reverse_rows (transpose board))).2) = (transpose board, 0)
      rw [hfix]
      simp only [reverse_rows_involutive]
    show (transpose (move_right (transpose board)).1,
      (move_right (transpose board)).2) = (board, 0)
    rw [hmrt]
    simp only [transpose_transpose board hsq]
  exact ⟨hml, hmr, hmu, hmd⟩

theorem no_move_of_movers_fixed (board : Board) (hsq : is_square board = true)
    (hnz : ∃ i j, (board.getD i []).getD j 0 ≠ 0)
    (hl : (move_left board).1 = board) (hr : (move_right board).1 = board)
    (hu : (move_up board).1 = board) (hd : (move_down board).1 = board) :
    can_move board = false := by
  obtain ⟨i0, j0, hnz0⟩ := hnz
  have hne : board ≠ [] := by
    rintro rfl
    simp at hnz0
  have hsq2 := (is_square_iff board).1 hsq
  have hmin : minLen board = board.length := minLen_uniform board hne hsq2
  have hi0 : i0 < board.length := by
    by_contra hcon
    push_neg at hcon
    rw [List.getD_eq_default board [] hcon] at hnz0
    simp at hnz0
  have hr0mem : board.getD i0 [] ∈ board := getD_mem board i0 [] hi0
  have hj0 : j0 < (board.getD i0 []).length := by
    by_contra hcon
    push_neg at hcon
    rw [List.getD_eq_default _ 0 hcon] at hnz0
    exact hnz0 rfl
  have hrowfix : ∀ r ∈ board, (compress r).1 = r := by
    have hl2 : board.map (fun row => (compress row).1) = board := hl
    exact fun r hr2 => map_eq_self_mem hl2 r hr2
  have hrowrevfix : ∀ r ∈ board, (compress r.reverse).1 = r.reverse := by
    have hr2 : reverse_rows ((move_left (reverse_rows board)).1) = board := hr
    have hx : (move_left (reverse_rows board)).1 = reverse_rows board := by
      calc (move_left (reverse_rows board)).1
          = reverse_rows (reverse_rows ((move_left (reverse_rows board)).1)) :=
            (reverse_rows_involutive _).symm
        _ = reverse_rows board := by rw [hr2]
    have hx2 : (reverse_rows board).map (fun row => (compress row).1)
        = reverse_rows board := hx
    intro r hrm
    have hmem : r.reverse ∈ reverse_rows board := by
      simp only [reverse_rows, List.mem_map]
      exact ⟨r, hrm, rfl⟩
    exact map_eq_self_mem hx2 r.reverse hmem
  have hXsq : is_square (move_left (transpose board)).1 = true :=
    move_left_square _ (transpose_square board hsq)
  have hcolfix : ∀ c ∈ transpose board, (compress c).1 = c := by
    have hu2 : transpose ((move_left (transpose board)).1) = board := hu
    have hx : (move_left (transpose board)).1 = transpose board := by
      calc (move_left (transpose board)).1
          = transpose (transpose ((move_left (transpose board)).1)) :=
            (transpose_transpose _ hXsq).symm
        _ = transpose board := by rw [hu2]
    have hx2 : (transpose board).map (fun row => (compress row).1)
        = transpose board := hx
    exact fun c hc => map_eq_self_mem hx2 c hc
  have hYsq : is_square (move_right (transpose board)).1 = true :=
    move_right_square _ (transpose_square board hsq)
  have hcolrevfix : ∀ c ∈ transpose board, (compress c.reverse).1 = c.reverse := by
    have hd2 : transpose ((move_right (transpose board)).1) = board := hd
    have hy : (move_right (transpose board)).1 = transpose board := by
      calc (move_right (transpose board)).1
          = transpose (transpose ((move_right (transpose board)).1)) :=
            (transpose_transpose _ hYsq).symm
        _ = transpose board := by rw [hd2]
    have hy2 : reverse_rows ((move_left (reverse_rows (transpose board))).1)
        = transpose board := hy
    have hz : (move_left (reverse_rows (transpose board))).1
        = reverse_rows (transpose board) := by
      calc (move_left (reverse_rows (transpose board))).1
          = reverse_rows (reverse_rows ((move_left (reverse_rows (transpose board))).1)) :=
            (reverse_rows_involutive _).symm
        _ = reverse_rows (transpose board) := by rw [hy2]
    have hz2 : (reverse_rows (transpose board)).map (fun row => (compress row).1)
        = reverse_rows (transpose board) := hz
    intro c hc
    have hmem : c.reverse ∈ reverse_rows (transpose board) := by
      simp only [reverse_rows, List.mem_map]
      exact ⟨c, hc, rfl⟩
    exact map_eq_self_mem hz2 c.reverse hmem
  have hrowdich : ∀ r ∈ board, (∀ x ∈ r, x = 0) ∨ (∀ x ∈ r, x ≠ 0) :=
    fun r hr2 => row_dichotomy r (hrowfix r hr2) (hrowrevfix r hr2)
  have hcoldich : ∀ c ∈ transpose board, (∀ x ∈ c, x = 0) ∨ (∀ x ∈ c, x ≠ 0) :=
    fun c hc => row_dichotomy c (hcolfix c hc) (hcolrevfix c hc)
  have hx0mem : (board.getD i0 []).getD j0 0 ∈ board.getD i0 [] :=
    getD_mem _ j0 0 hj0
  have hj0N : j0 < board.length := by
    have := hsq2 _ hr0mem
    omega
  have hcol_mem : ∀ j, j < board.length →
      board.map (fun row => row.getD j 0) ∈ transpose board := by
    intro j hj
    simp only [transpose, List.mem_map, List.mem_range, hmin]
    exact ⟨j, hj, rfl⟩
  have hallrows : ∀ r ∈ board, ∀ x ∈ r, x ≠ 0 := by
    intro r hr2 x hx hx0
    subst hx0
    have hralz : ∀ y ∈ r, y = 0 := by
      rcases hrowdich r hr2 with hcase | hcase
      · exact hcase
      · exact absurd rfl (hcase 0 hx)
    have hrj0 : r.getD j0 0 = 0 := by
      by_cases hjr : j0 < r.length
      · exact hralz _ (getD_mem r j0 0 hjr)
      · push_neg at hjr
        exact List.getD_eq_default r 0 hjr
    have hczero : ∀ y ∈ board.map (fun row => row.getD j0 0), y = 0 := by
      rcases hcoldich _ (hcol_mem j0 hj0N) with hcase | hcase
      · exact hcase
      · exfalso
        apply hcase (r.getD j0 0) _ hrj0
        simp only [List.mem_map]
        exact ⟨r, hr2, rfl⟩
    apply hnz0
    apply hczero
    simp only [List.mem_map]
    exact ⟨board.getD i0 [], hr0mem, rfl⟩
  have hno0 : get_empty_cells board = [] := by
    rw [get_empty_cells_eq_nil]
    intro i hi j hj
    have hrow := getD_mem board i [] hi
    have hjlen : j < (board.getD i []).length := by
      rw [hsq2 _ hrow]
      rw [head_length_square board hne hsq] at hj
      exact hj
    exact hallrows _ hrow _ (getD_mem _ j 0 hjlen)
  have hrowpair : ∀ r ∈ board, rowHasAdjPair r = false :=
    fun r hr2 => compress_zero_free_fixed r (hallrows r hr2) (hrowfix r hr2)
  have hcolpair : ∀ c ∈ transpose board, rowHasAdjPair c = false :=
    fun c hc => compress_zero_free_fixed c
      (transpose_cell_ne_zero board hallrows c hc) (hcolfix c hc)
  have hBfalse : (board.any (fun row =>
      (List.range (row.length - 1)).any
        (fun i => row.getD i 0 == row.getD (i + 1) 0))) = false := by
    rw [List.any_eq_false]
    intro r hr2
    rw [adj_loop_eq r, hrowpair r hr2]
    simp
  have hCfalse : ((List.range (board.headD []).length).any (fun col =>
      (List.range (board.length - 1)).any (fun i =>
        (board.getD i []).getD col 0 == (board.getD (i + 1) []).getD col 0))) = false := by
    rw [vert_check_eq board hsq, List.any_eq_false]
    intro c hc
    rw [hcolpair c hc]
    simp
  rw [can_move, hno0, hBfalse, hCfalse]
  rfl

theorem map_const_range {α : Type} (x : α) : ∀ n : Nat,
    (List.range n).map (fun _ => x) = List.replicate n x
  | 0 => rfl
  | n + 1 => by
    rw [List.range_succ, List.map_append, map_const_range x n,
      List.replicate_succ' n x]
    rfl

/-! The frozen claims. -/

/-- C1, counterexample: on the all-zero 2×2 board (a square board),
`can_move` is true because empty cells exist, yet all four movers
return the board unchanged — the claimed equivalence fails for square
boards in general. -/
theorem can_move_equiv_cex :
    can_move [[0, 0], [0, 0]] = true ∧
    (move_up [[0, 0], [0, 0]]).1 = [[0, 0], [0, 0]] ∧
    (move_down [[0, 0], [0, 0]]).1 = [[0, 0], [0, 0]] ∧
    (move_left [[0, 0], [0, 0]]).1 = [[0, 0], [0, 0]] ∧
    (move_right [[0, 0], [0, 0]]).1 = [[0, 0], [0, 0]] := by
  decide

/-- C1, amended: for every square board that carries at least one
non-zero tile, `can_move` is true exactly when at least one of the four
directional movers returns a board different from its input. -/
theorem can_move_equiv (board : Board) (hsq : is_square board = true)
    (hnz : ∃ i j, (board.getD i []).getD j 0 ≠ 0) :
    can_move board = true ↔
      ((move_up board).1 ≠ board ∨ (move_down board).1 ≠ board ∨
       (move_left board).1 ≠ board ∨ (move_right board).1 ≠ board) := by
  constructor
  · intro hcm
    by_contra hcon
    push_neg at hcon
    obtain ⟨hu, hd, hl, hr⟩ := hcon
    have hfalse := no_move_of_movers_fixed board hsq hnz hl hr hu hd
    rw [hfalse] at hcm
    exact Bool.false_ne_true hcm
  · intro hsome
    cases hcm : can_move board with
    | true => rfl
    | false =>
      obtain ⟨hml, hmr, hmu, hmd⟩ := movers_fixed_of_no_move board hsq hcm
      rcases hsome with hne | hne | hne | hne
      · exact absurd (by rw [hmu]) hne
      · exact absurd (by rw [hmd]) hne
      · exact absurd (by rw [hml]) hne
      · exact absurd (by rw [hmr]) hne

/-- C1, witness: the amended equivalence applied to the concrete square
board `[[2, 2], [4, 8]]`, whose top-left cell is non-zero. -/
theorem can_move_equiv_witness :
    is_square [[2, 2], [4, 8]] = true ∧
    (can_move [[2, 2], [4, 8]] = true ↔
      ((move_up [[2, 2], [4, 8]]).1 ≠ [[2, 2], [4, 8]] ∨
       (move_down [[2, 2], [4, 8]]).1 ≠ [[2, 2], [4, 8]] ∨
       (move_left [[2, 2], [4, 8]]).1 ≠ [[2, 2], [4, 8]] ∨
       (move_right [[2, 2], [4, 8]]).1 ≠ [[2, 2], [4, 8]])) :=
  ⟨by decide, can_move_equiv [[2, 2], [4, 8]] (by decide) ⟨0, 0, by decide⟩⟩

/-- C2: the three `compress` scenarios: a simple merge scores 4, a
triple merges only once (no re-merge of the freshly created 4), and a
pure slide scores 0. -/
theorem compress_scenarios :
    compress [2, 2, 0, 0] = ([4, 0, 0, 0], 4) ∧
    compress [2, 2, 2, 0] = ([4, 2, 0, 0], 4) ∧
    compress [0, 2, 0, 4] = ([2, 4, 0, 0], 0) := by
  decide

/-- C3: `compress` preserves the line length, places every non-zero
value before every zero, and returns a non-negative score equal to the
sum of the merged values created in the pass. -/
theorem compress_invariants (row : List Nat) :
    (compress row).1.length = row.length ∧
    (∃ m k, (compress row).1 = m ++ List.replicate k 0 ∧ ∀ x ∈ m, x ≠ 0) ∧
    0 ≤ (compress row).2 ∧
    (compress row).2 = (mergedValues (row.filter (fun num => num != 0))).sum := by
  refine ⟨compress_length row, ?_, Nat.zero_le _, mergeRow_score _⟩
  exact ⟨(mergeRow (row.filter (fun num => num != 0))).1,
    row.length - (mergeRow (row.filter (fun num => num != 0))).1.length,
    rfl, mergeRow_nonzero _ (filter_mem_ne_zero row)⟩

/-- C4: on a square board each of the four movers preserves the sum of
all tile values (the board before any tile is spawned). -/
theorem move_sum_conservation (board : Board) (hsq : is_square board = true) :
    sumBoard (move_left board).1 = sumBoard board ∧
    sumBoard (move_right board).1 = sumBoard board ∧
    sumBoard (move_up board).1 = sumBoard board ∧
    sumBoard (move_down board).1 = sumBoard board :=
  ⟨sumBoard_move_left board, sumBoard_move_right board,
   sumBoard_move_up board hsq, sumBoard_move_down board hsq⟩

/-- C4, witness: sum conservation on the concrete board `[[2, 2], [0, 4]]`. -/
theorem move_sum_conservation_witness :
    is_square [[2, 2], [0, 4]] = true ∧
    (sumBoard (move_left [[2, 2], [0, 4]]).1 = sumBoard [[2, 2], [0, 4]] ∧
     sumBoard (move_right [[2, 2], [0, 4]]).1 = sumBoard [[2, 2], [0, 4]] ∧
     sumBoard (move_up [[2, 2], [0, 4]]).1 = sumBoard [[2, 2], [0, 4]] ∧
     sumBoard (move_down [[2, 2], [0, 4]]).1 = sumBoard [[2, 2], [0, 4]]) :=
  ⟨by decide, move_sum_conservation [[2, 2], [0, 4]] (by decide)⟩

/-- C5: `move_right` equals reverse-rows, `move_left`, reverse-rows
with the same score; `move_up` equals transpose, `move_left`, transpose;
`move_down` equals transpose, `move_right`, transpose. -/
theorem orientation_symmetry (board : Board) :
    move_right board = (reverse_rows (move_left (reverse_rows board)).1,
      (move_left (reverse_rows board)).2) ∧
    move_up board = (transpose (move_left (transpose board)).1,
      (move_left (transpose board)).2) ∧
    move_down board = (transpose (move_right (transpose board)).1,
      (move_right (transpose board)).2) :=
  ⟨rfl, rfl, rfl⟩

/-- C9, counterexample: `create_board` accepts sizes below 2 and
returns ordinary all-zero grids (`[[0]]` for size 1, `[]` for size 0)
instead of failing: no `InvalidSizeError` exists in the code. -/
theorem create_board_small_sizes :
    create_board 1 = [[0]] ∧ create_board 0 = [] := by
  decide

/-- C9, amended: `create_board size` returns the all-zero size×size
grid for every size, with no size validation whatsoever. -/
theorem create_board_spec (size : Nat) :
    create_board size = List.replicate size (List.replicate size 0) := by
  rw [create_board, map_const_range, map_const_range]

/-- C10: each of the four movers maps a square board to a square board
of the same dimension. -/
theorem move_shape (board : Board) (hsq : is_square board = true) :
    (is_square (move_left board).1 = true ∧
      (move_left board).1.length = board.length) ∧
    (is_square (move_right board).1 = true ∧
      (move_right board).1.length = board.length) ∧
    (is_square (move_up board).1 = true ∧
      (move_up board).1.length = board.length) ∧
    (is_square (move_down board).1 = true ∧
      (move_down board).1.length = board.length) :=
  ⟨⟨move_left_square board hsq, move_left_length board⟩,
   ⟨move_right_square board hsq, move_right_length board⟩,
   ⟨move_up_square board hsq, move_up_length board hsq⟩,
   ⟨move_down_square board hsq, move_down_length board hsq⟩⟩

/-- C10, witness: shape preservation on the concrete board `[[2, 0], [4, 2]]`. -/
theorem move_shape_witness :
    is_square [[2, 0], [4, 2]] = true ∧
    ((is_square (move_left [[2, 0], [4, 2]]).1 = true ∧
      (move_left [[2, 0], [4, 2]]).1.length = ([[2, 0], [4, 2]] : Board).length) ∧
     (is_square (move_right [[2, 0], [4, 2]]).1 = true ∧
      (move_right [[2, 0], [4, 2]]).1.length = ([[2, 0], [4, 2]] : Board).length) ∧
     (is_square (move_up [[2, 0], [4, 2]]).1 = true ∧
      (move_up [[2, 0], [4, 2]]).1.length = ([[2, 0], [4, 2]] : Board).length) ∧
     (is_square (move_down [[2, 0], [4, 2]]).1 = true ∧
      (move_down [[2, 0], [4, 2]]).1.length = ([[2, 0], [4, 2]] : Board).length)) :=
  ⟨by decide, move_shape [[2, 0], [4, 2]] (by decide)⟩

/-- C6: when the directional mover returns a board equal to the
snapshot, `make_move` rejects the move atomically: the returned state
is the input state (same board, same cumulative score, no tile
spawned), and an immediate second application of the same mover is
rejected with the identical state. -/
theorem make_move_rejects_noop (st : Game2048State)
    (move_function : Board → Board × Nat) (pick : Nat) (four : Bool)
    (h : (move_function st.board).1 = st.board) :
    make_move st move_function pick four = (st, MoveSignal.rejected) ∧
    make_move (make_move st move_function pick four).1 move_function pick four
      = (st, MoveSignal.rejected) := by
  have h1 : make_move st move_function pick four = (st, MoveSignal.rejected) := by
    simp [make_move, boards_equal, h]
  refine ⟨h1, ?_⟩
  rw [h1]
  exact h1

/-- C6, witness: pressing Left on `[[2, 0], [0, 0]]` (already flush
left) is rejected twice in a row, leaving board and score untouched. -/
theorem make_move_rejects_noop_witness :
    (move_left ([[2, 0], [0, 0]] : Board)).1 = [[2, 0], [0, 0]] ∧
    (make_move ⟨[[2, 0], [0, 0]], 5, false⟩ move_left 0 false
        = (⟨[[2, 0], [0, 0]], 5, false⟩, MoveSignal.rejected) ∧
      make_move (make_move ⟨[[2, 0], [0, 0]], 5, false⟩ move_left 0 false).1
          move_left 0 false = (⟨[[2, 0], [0, 0]], 5, false⟩, MoveSignal.rejected)) :=
  ⟨by decide, make_move_rejects_noop ⟨[[2, 0], [0, 0]], 5, false⟩ move_left 0 false
    (by decide)⟩

/-- C7: `has_won` holds exactly when some cell equals the target; the
win flag is sticky: an accepted move whose post-spawn board contains
2048 sets the flag and signals `won` when the flag was clear, a set
flag is never signalled `won` again and is never cleared by
`make_move`, and `restart_game` resets it to false. -/
theorem win_flag_sticky :
    (∀ (board : Board) (target : Nat),
      has_won board target = true ↔ ∃ row ∈ board, target ∈ row) ∧
    (∀ (st : Game2048State) (f : Board → Board × Nat) (pick : Nat) (four : Bool),
      (f st.board).1 ≠ st.board → st.game_won = false →
      has_won (add_random_tile (f st.board).1 pick four) 2048 = true →
      (make_move st f pick four).1.game_won = true ∧
        (make_move st f pick four).2 = MoveSignal.won) ∧
    (∀ (st : Game2048State) (f : Board → Board × Nat) (pick : Nat) (four : Bool),
      st.game_won = true →
      (make_move st f pick four).2 ≠ MoveSignal.won ∧
        (make_move st f pick four).1.game_won = true) ∧
    (∀ (size p1 : Nat) (f1 : Bool) (p2 : Nat) (f2 : Bool),
      (restart_game size p1 f1 p2 f2).game_won = false) := by
  refine ⟨?_, ?_, ?_, ?_⟩
  · intro board target
    simp only [has_won, List.any_eq_true]
    exact ⟨fun ⟨row, h1, h2⟩ => ⟨row, h1, List.elem_iff.1 h2⟩,
      fun ⟨row, h1, h2⟩ => ⟨row, h1, List.elem_iff.2 h2⟩⟩
  · intro st f pick four hchange hflag hwon
    have hcond : boards_equal st.board (f st.board).1 = false := by
      simp only [boards_equal, beq_eq_false_iff_ne, ne_eq]
      exact fun hc => hchange hc.symm
    constructor
    · simp [make_move, hcond, hflag, hwon]
    · simp [make_move, hcond, hflag, hwon]
  · intro st f pick four hflag
    by_cases hcond : boards_equal st.board (f st.board).1
    · constructor
      · simp [make_move, hcond]
      · simp [make_move, hcond, hflag]
    · have hcondf : boards_equal st.board (f st.board).1 = false :=
        Bool.eq_false_iff.2 hcond
      by_cases hover : game_over (add_random_tile (f st.board).1 pick four)
      · constructor
        · simp [make_move, hcondf, hflag, hover]
        · simp [make_move, hcondf, hflag, hover]
      · have hoverf : game_over (add_random_tile (f st.board).1 pick four) = false :=
          Bool.eq_false_iff.2 hover
        constructor
        · simp [make_move, hcondf, hflag, hoverf]
        · simp [make_move, hcondf, hflag, hoverf]
  · intro size p1 f1 p2 f2
    rfl

/-- C7, witness: moving left on `[[1024, 1024], [2, 4]]` with a clear
flag merges to 2048, sets the flag and signals `won`; with the flag
already set the `won` signal never recurs and the flag stays set; a
restart clears the flag. -/
theorem win_flag_sticky_witness :
    ((make_move ⟨[[1024, 1024], [2, 4]], 0, false⟩ move_left 0 false).1.game_won = true ∧
     (make_move ⟨[[1024, 1024], [2, 4]], 0, false⟩ move_left 0 false).2 = MoveSignal.won) ∧
    ((make_move ⟨[[2, 0], [0, 0]], 0, true⟩ move_left 0 false).2 ≠ MoveSignal.won ∧
     (make_move ⟨[[2, 0], [0, 0]], 0, true⟩ move_left 0 false).1.game_won = true) ∧
    (restart_game 2 0 false 0 false).game_won = false :=
  ⟨win_flag_sticky.2.1 ⟨[[1024, 1024], [2, 4]], 0, false⟩ move_left 0 false
      (by decide) rfl (by decide),
   win_flag_sticky.2.2.1 ⟨[[2, 0], [0, 0]], 0, true⟩ move_left 0 false rfl,
   win_flag_sticky.2.2.2 2 0 false 0 false⟩

/-- C8: `add_random_tile` returns the board unchanged when no empty
cell exists; otherwise exactly one cell that held 0 receives the value
2 or 4 (4 on the `four` branch) and every other cell keeps its value. -/
theorem add_random_tile_frame (board : Board) (pick : Nat) (four : Bool)
    (hsq : is_square board = true) :
    (get_empty_cells board = [] → add_random_tile board pick four = board) ∧
    (get_empty_cells board ≠ [] → ∃ i j,
      i < board.length ∧ j < board.length ∧
      (board.getD i []).getD j 0 = 0 ∧
      ((add_random_tile board pick four).getD i []).getD j 0
        = (if four then 4 else 2) ∧
      (∀ a b, a ≠ i ∨ b ≠ j →
        ((add_random_tile board pick four).getD a []).getD b 0
          = (board.getD a []).getD b 0)) := by
  constructor
  · intro hempty
    simp [add_random_tile, hempty]
  · intro hne
    have hlen : 0 < (get_empty_cells board).length := List.length_pos.2 hne
    have hk : pick % (get_empty_cells board).length
        < (get_empty_cells board).length := Nat.mod_lt _ hlen
    have hmem : (get_empty_cells board).getD
        (pick % (get_empty_cells board).length) (0, 0) ∈ get_empty_cells board :=
      getD_mem _ _ _ hk
    obtain ⟨i, j, hij⟩ : ∃ i j, (get_empty_cells board).getD
        (pick % (get_empty_cells board).length) (0, 0) = (i, j) := ⟨_, _, rfl⟩
    rw [hij] at hmem
    obtain ⟨hi, hjh, hz⟩ := (mem_get_empty_cells board i j).1 hmem
    have hbne : board ≠ [] := by
      rintro rfl
      simp at hi
    have hh : (board.headD []).length = board.length :=
      head_length_square board hbne hsq
    have hj : j < board.length := by rw [← hh]; exact hjh
    have hrowlen : (board.getD i []).length = board.length :=
      (is_square_iff board).1 hsq _ (getD_mem board i [] hi)
    have hjrow : j < (board.getD i []).length := by rw [hrowlen]; exact hj
    have hcond : (get_empty_cells board).isEmpty = false := by
      cases hcells : get_empty_cells board with
      | nil => exact absurd hcells hne
      | cons p t => rfl
    have hres : add_random_tile board pick four
        = board.set i ((board.getD i []).set j (if four then 4 else 2)) := by
      have hij2 := hij
      simp at hij2
      simp [add_random_tile, hcond, hij2]
    refine ⟨i, j, hi, hj, hz, ?_, ?_⟩
    · rw [hres,
        getD_set_self ((board.getD i []).set j (if four then 4 else 2)) [] board i hi,
        getD_set_self (if four then 4 else 2) 0 (board.getD i []) j hjrow]
    · intro a b hab
      rw [hres]
      by_cases ha : a = i
      · subst ha
        have hbj : b ≠ j := by
          rcases hab with hcase | hcase
          · exact absurd rfl hcase
          · exact hcase
        rw [getD_set_self ((board.getD a []).set j (if four then 4 else 2)) [] board a hi,
          getD_set_ne (if four then 4 else 2) 0 (board.getD a []) j b hbj]
      · rw [getD_set_ne ((board.getD i []).set j (if four then 4 else 2)) [] board i a ha]

/-- C8, witness: spawning on `[[0, 2], [2, 4]]` with `pick = 0`,
`four = false` and on the full board `[[2, 4], [8, 16]]`. -/
theorem add_random_tile_frame_witness :
    is_square [[0, 2], [2, 4]] = true ∧
    ((get_empty_cells [[0, 2], [2, 4]] = [] →
        add_random_tile [[0, 2], [2, 4]] 0 false = [[0, 2], [2, 4]]) ∧
     (get_empty_cells [[0, 2], [2, 4]] ≠ [] → ∃ i j,
        i < ([[0, 2], [2, 4]] : Board).length ∧
        j < ([[0, 2], [2, 4]] : Board).length ∧
        (([[0, 2], [2, 4]] : Board).getD i []).getD j 0 = 0 ∧
        ((add_random_tile [[0, 2], [2, 4]] 0 false).getD i []).getD j 0
          = (if false then 4 else 2) ∧
        (∀ a b, a ≠ i ∨ b ≠ j →
          ((add_random_tile [[0, 2], [2, 4]] 0 false).getD a []).getD b 0
            = (([[0, 2], [2, 4]] : Board).getD a []).getD b 0))) :=
  ⟨by decide, add_random_tile_frame [[0, 2], [2, 4]] 0 false (by decide)⟩
